import Mathlib

/-!
# Verification of the unified-peakome interval pipeline

Shallow embedding of `create_unified_peakome.py`: the `Peak` record, the
chromosome filter, the per-sample reader with score cap, the close-peak
merger, the uniform-length normalizer, the overlap resolver and the
orchestration in `main`.

Modelling conventions:
* Python `int` coordinates are `Int` (arbitrary precision in both).
* Python `float` scores are used only in order comparisons and `max`;
  they are modelled as `Int`.
* Python's in-place stable `list.sort(key=...)` is modelled as
  `List.insertionSort` with the corresponding lexicographic relation:
  both are stable sorts, so they produce the same list.
* Python `//` (floor division) coincides with `Int` `/` (`Int.ediv`) for
  the positive divisors used by the source.
* Digit tests (`str.isdigit`) and numeric parsing are modelled for ASCII
  digit strings; non-ASCII digit classes are not modelled.
* The `while` loop of the split branch is modelled with explicit fuel
  `(end - start).toNat + 1`, which is shown sufficient whenever the
  target length is positive (the only regime the loop terminates in).
-/

/-- Genomic peak record (`class Peak`): chromosome, half-open interval
`[start, end)`, score and identifier. -/
structure Peak where
  chrom : String
  start : Int
  «end» : Int
  score : Int
  peak_id : String
deriving DecidableEq, Repr

/-- `Peak.distance_to`: `none` models Python's `float('inf')` for peaks on
different chromosomes; otherwise the gap between the nearer endpoints,
`0` when the intervals overlap or touch. -/
def Peak.distance_to (p q : Peak) : Option Int :=
  if p.chrom ≠ q.chrom then none
  else if p.«end» < q.start then some (q.start - p.«end»)
  else if q.«end» < p.start then some (p.start - q.«end»)
  else some 0

/-- `Peak.merge_with`: coordinate hull, max score, and an id that is the
`"_"`-join of the operand ids when both are non-empty and `""` otherwise.
The Python `ValueError` branch for distinct chromosomes is never reached
by the pipeline (merging is guarded by a finite distance, which forces
equal chromosomes); the returned chromosome is the first operand's. -/
def Peak.merge_with (p q : Peak) : Peak :=
  { chrom := p.chrom
    start := min p.start q.start
    «end» := max p.«end» q.«end»
    score := max p.score q.score
    peak_id :=
      if p.peak_id ≠ "" ∧ q.peak_id ≠ "" then p.peak_id ++ "_" ++ q.peak_id else "" }

/-- Numeric value of a (non-empty, all-digit) ASCII digit character list,
as computed by Python `int`. -/
def digitsVal (cs : List Char) : Nat :=
  cs.foldl (fun n c => 10 * n + (c.toNat - 48)) 0

/-- `is_main_chromosome`: accepts `"chr"` followed by a non-empty digit
string of value in `[1, 22]`, or by `"X"` / `"Y"` (case-sensitive).
Python indexes strings by code points, so `chrom.startswith('chr')` and
`chrom[3:]` are modelled on `chrom.data`. -/
def is_main_chromosome (chrom : String) : Bool :=
  match chrom.data with
  | 'c' :: 'h' :: 'r' :: chrom_part =>
    if chrom_part ≠ [] ∧ chrom_part.all Char.isDigit then
      decide (1 ≤ digitsVal chrom_part ∧ digitsVal chrom_part ≤ 22)
    else if chrom_part = ['X'] ∨ chrom_part = ['Y'] then true
    else false
  | _ => false

/-- The 24 primary chromosome names exactly as the claim lists them:
`chr1` … `chr22`, `chrX`, `chrY`.  This definition follows the claim's
words (exact, case-sensitive string match) and exists only to be compared
with the source's `is_main_chromosome`. -/
def claimPrimaryChromosomes : List String :=
  ["chr1", "chr2", "chr3", "chr4", "chr5", "chr6", "chr7", "chr8",
   "chr9", "chr10", "chr11", "chr12", "chr13", "chr14", "chr15", "chr16",
   "chr17", "chr18", "chr19", "chr20", "chr21", "chr22", "chrX", "chrY"]

/-- Python compares strings lexicographically by code points; this is
the lexicographic order on `String.data`. -/
def strLt (s t : String) : Prop :=
  s.data < t.data

instance : DecidableRel strLt := fun s t =>
  inferInstanceAs (Decidable (s.data < t.data))

theorem strLt_trichotomy (s t : String) : strLt s t ∨ s = t ∨ strLt t s := by
  rcases lt_trichotomy s.data t.data with h | h | h
  · exact Or.inl h
  · refine Or.inr (Or.inl ?_)
    cases s; cases t
    exact congrArg String.mk h
  · exact Or.inr (Or.inr h)

theorem strLt_trans {s t u : String} (h1 : strLt s t) (h2 : strLt t u) : strLt s u :=
  lt_trans h1 h2

/-- Sort key of `merge_close_peaks` and of the final output sort:
ascending lexicographic `(chrom, start)`, as produced by Python's stable
sort with key `(p.chrom, p.start)`. -/
def keyLE (p q : Peak) : Prop :=
  strLt p.chrom q.chrom ∨ (p.chrom = q.chrom ∧ p.start ≤ q.start)

instance : DecidableRel keyLE := fun _ _ =>
  inferInstanceAs (Decidable (_ ∨ _))

instance : IsTotal Peak keyLE where
  total p q := by
    rcases strLt_trichotomy p.chrom q.chrom with h | h | h
    · exact Or.inl (Or.inl h)
    · rcases le_total p.start q.start with h' | h'
      · exact Or.inl (Or.inr ⟨h, h'⟩)
      · exact Or.inr (Or.inr ⟨h.symm, h'⟩)
    · exact Or.inr (Or.inl h)

instance : IsTrans Peak keyLE where
  trans p q r hpq hqr := by
    rcases hpq with h1 | ⟨h1, h1'⟩ <;> rcases hqr with h2 | ⟨h2, h2'⟩
    · exact Or.inl (strLt_trans h1 h2)
    · exact Or.inl (h2 ▸ h1)
    · exact Or.inl (h1 ▸ h2)
    · exact Or.inr ⟨h1.trans h2, le_trans h1' h2'⟩

/-- The boolean merging test `current.distance_to(next) <= max_distance`:
false when the distance is infinite (distinct chromosomes). -/
def distLEb (p q : Peak) (D : Int) : Bool :=
  match p.distance_to q with
  | none => false
  | some d => decide (d ≤ D)

/-- The sweep of `merge_close_peaks`: accumulate `cur`, merging every
following peak within distance `D`, emitting `cur` otherwise. -/
def sweepMerge (D : Int) (cur : Peak) : List Peak → List Peak
  | [] => [cur]
  | n :: rest =>
    if distLEb cur n D then sweepMerge D (cur.merge_with n) rest
    else cur :: sweepMerge D n rest

/-- `merge_close_peaks`: stable sort by `(chrom, start)`, then a single
sweep merging peaks within `max_distance` of the accumulator. -/
def merge_close_peaks (peaks : List Peak) (max_distance : Int) : List Peak :=
  match List.insertionSort keyLE peaks with
  | [] => []
  | p :: rest => sweepMerge max_distance p rest

/-- Sort key of `remove_overlapping_peaks`: Python's stable sort with key
`(p.chrom, p.start, -p.score)`, i.e. chromosome ascending, start
ascending, score descending. -/
def roLE (p q : Peak) : Prop :=
  strLt p.chrom q.chrom ∨
    (p.chrom = q.chrom ∧ (p.start < q.start ∨ (p.start = q.start ∧ q.score ≤ p.score)))

instance : DecidableRel roLE := fun _ _ =>
  inferInstanceAs (Decidable (_ ∨ _))

instance : IsTotal Peak roLE where
  total p q := by
    rcases strLt_trichotomy p.chrom q.chrom with h | h | h
    · exact Or.inl (Or.inl h)
    · rcases lt_trichotomy p.start q.start with h' | h' | h'
      · exact Or.inl (Or.inr ⟨h, Or.inl h'⟩)
      · rcases le_total q.score p.score with h'' | h''
        · exact Or.inl (Or.inr ⟨h, Or.inr ⟨h', h''⟩⟩)
        · exact Or.inr (Or.inr ⟨h.symm, Or.inr ⟨h'.symm, h''⟩⟩)
      · exact Or.inr (Or.inr ⟨h.symm, Or.inl h'⟩)
    · exact Or.inr (Or.inl h)

instance : IsTrans Peak roLE where
  trans p q r hpq hqr := by
    rcases hpq with h1 | ⟨e1, h1⟩ <;> rcases hqr with h2 | ⟨e2, h2⟩
    · exact Or.inl (strLt_trans h1 h2)
    · exact Or.inl (e2 ▸ h1)
    · exact Or.inl (by rw [e1]; exact h2)
    · refine Or.inr ⟨e1.trans e2, ?_⟩
      rcases h1 with h1 | ⟨e1', h1⟩ <;> rcases h2 with h2 | ⟨e2', h2⟩
      · exact Or.inl (lt_trans h1 h2)
      · exact Or.inl (e2' ▸ h1)
      · exact Or.inl (by rw [e1']; exact h2)
      · exact Or.inr ⟨e1'.trans e2', le_trans h2 h1⟩

/-- The sweep of `remove_overlapping_peaks`: on a strict same-chromosome
overlap keep the accumulator when its score is at least the challenger's,
otherwise adopt the challenger; emit the accumulator when no overlap. -/
def resolveSweep (cur : Peak) : List Peak → List Peak
  | [] => [cur]
  | n :: rest =>
    if cur.chrom = n.chrom ∧ n.start < cur.«end» then
      if n.score ≤ cur.score then resolveSweep cur rest
      else resolveSweep n rest
    else cur :: resolveSweep n rest

/-- `remove_overlapping_peaks`: stable sort by
`(chrom, start, -score)`, then the greedy sweep. -/
def remove_overlapping_peaks (peaks : List Peak) : List Peak :=
  match List.insertionSort roLE peaks with
  | [] => []
  | p :: rest => resolveSweep p rest

/-- Identifier of a split piece: the Python f-string
`f"{peak.peak_id}_piece_{n}" if peak.peak_id else f"piece_{n}"` where
`n` is one more than the number of peaks already accumulated in
`uniform_peaks`. -/
def pieceId (pid : String) (n : Nat) : String :=
  if pid ≠ "" then pid ++ "_piece_" ++ toString n else "piece_" ++ toString n

/-- The `while current_pos < peak.end` loop of the split branch of
`make_peaks_uniform_length`, with explicit fuel.  `pos` is
`current_pos`, `c` the number of peaks already accumulated (`len(uniform_peaks)`).
A full window `[pos, pos + L)` is emitted when it fits; a final window is
shifted back to `[pend - L, pend)` when it would overrun `pend`, or
dropped (loop break) when the shifted window would start before `pstart`. -/
def splitLoop (chrom : String) (score : Int) (pid : String) (pstart pend L : Int) :
    Nat → Int → Nat → List Peak
  | 0, _, _ => []
  | fuel + 1, pos, c =>
    if pos < pend then
      if pend < pos + L then
        if pend - L < pstart then []
        else ⟨chrom, pend - L, pend, score, pieceId pid (c + 1)⟩ ::
          splitLoop chrom score pid pstart pend L fuel pend (c + 1)
      else ⟨chrom, pos, pos + L, score, pieceId pid (c + 1)⟩ ::
        splitLoop chrom score pid pstart pend L fuel (pos + L) (c + 1)
    else []

/-- Body of `make_peaks_uniform_length`, threading the running length of
`uniform_peaks` (used by the split-piece identifiers).  Python `//` is
floor division, which is `Int` division (`Int.ediv`) — they agree on the
positive divisor `2`. -/
def uniformGo (L : Int) : List Peak → Nat → List Peak
  | [], _ => []
  | p :: rest, c =>
    let current_length := p.«end» - p.start
    if current_length = L then
      p :: uniformGo L rest (c + 1)
    else if current_length < L then
      let extension_needed := L - current_length
      let half_extension := extension_needed / 2
      let new_start := p.start - half_extension
      let new_end := p.«end» + (extension_needed - half_extension)
      (if new_start < 0 then (⟨p.chrom, 0, L, p.score, p.peak_id⟩ : Peak)
       else ⟨p.chrom, new_start, new_end, p.score, p.peak_id⟩) :: uniformGo L rest (c + 1)
    else
      let pieces := splitLoop p.chrom p.score p.peak_id p.start p.«end» L
        ((p.«end» - p.start).toNat + 1) p.start c
      pieces ++ uniformGo L rest (c + pieces.length)

/-- `make_peaks_uniform_length`: pass through length-`L` peaks, extend
shorter peaks symmetrically (clamping at coordinate `0`), split longer
peaks into length-`L` windows.  The loop fuel `(end - start).toNat + 1`
is sufficient whenever `0 < L`. -/
def make_peaks_uniform_length (peaks : List Peak) (target_length : Int) : List Peak :=
  uniformGo target_length peaks 0

/-- Python `str.strip()` on a character list (ASCII whitespace; the
source's input lines are ASCII BED records). -/
def pyStrip (cs : List Char) : List Char :=
  ((cs.dropWhile Char.isWhitespace).reverse.dropWhile Char.isWhitespace).reverse

/-- Python `str.split('\t')`: `[] ↦ [""]`, separators are not merged. -/
def splitTab : List Char → List (List Char)
  | [] => [[]]
  | c :: rest =>
    if c = '\t' then [] :: splitTab rest
    else
      match splitTab rest with
      | [] => [[c]]
      | g :: gs => (c :: g) :: gs

/-- Python `int(...)` on a stripped field: optional sign followed by a
non-empty ASCII digit string (digit-group underscores are not modelled);
`none` models the `ValueError` that makes `read_peak_file` skip the line.
Scores (`float(...)` in the source) are modelled as integers. -/
def parsePyInt (cs : List Char) : Option Int :=
  match pyStrip cs with
  | '-' :: rest =>
    if rest ≠ [] ∧ rest.all Char.isDigit then some (-(digitsVal rest : Int)) else none
  | '+' :: rest =>
    if rest ≠ [] ∧ rest.all Char.isDigit then some ((digitsVal rest : Int)) else none
  | t => if t ≠ [] ∧ t.all Char.isDigit then some ((digitsVal t : Int)) else none

/-- One iteration of the line loop of `read_peak_file`: strip the line,
skip it when blank, malformed (fewer than four tab-separated fields) or
numerically unparsable, and otherwise keep the peak exactly when its
chromosome passes `is_main_chromosome`.  The score defaults to `0` when
the fifth field is absent. -/
def parseLine (line : String) : Option Peak :=
  let stripped := pyStrip line.data
  if stripped = [] then none
  else
    match splitTab stripped with
    | chrom :: s :: e :: pid :: rest =>
      match parsePyInt s, parsePyInt e,
        (match rest with | [] => some (0 : Int) | sc :: _ => parsePyInt sc) with
      | some sv, some ev, some scv =>
        if is_main_chromosome (String.mk chrom) then
          some ⟨String.mk chrom, sv, ev, scv, String.mk pid⟩
        else none
      | _, _, _ => none
    | _ => none

/-- Python `peaks[:cap]` where `cap` may be any integer: a negative cap
keeps all but the last `-cap` elements (empty when `-cap ≥ len`). -/
def pyPrefix (l : List Peak) (cap : Int) : List Peak :=
  if 0 ≤ cap then l.take cap.toNat else l.take (l.length - (-cap).toNat)

/-- `read_peak_file`: parse and filter the lines; when more than
`max_peaks_per_sample` peaks survive, stable-sort by score descending
and truncate.  (Python's `sort(key=score, reverse=True)` is stable in
exactly this sense.) -/
def read_peak_file (lines : List String) (max_peaks_per_sample : Int) : List Peak :=
  let peaks := lines.filterMap parseLine
  if max_peaks_per_sample < (peaks.length : Int) then
    pyPrefix (List.insertionSort (fun p q => q.score ≤ p.score) peaks) max_peaks_per_sample
  else peaks

/-- `defaultdict(list)` grouping by chromosome: first-occurrence order of
keys, insertion order inside each group (Python dicts preserve insertion
order). -/
def addToGroups (gs : List (String × List Peak)) (p : Peak) : List (String × List Peak) :=
  match gs with
  | [] => [(p.chrom, [p])]
  | (c, l) :: rest =>
    if c = p.chrom then (c, l ++ [p]) :: rest else (c, l) :: addToGroups rest p

def groupByChrom (ps : List Peak) : List (String × List Peak) :=
  ps.foldl addToGroups []

/-- Zero-padded decimal of width 6, Python `f"{n:06d}"` for `n ≥ 0`. -/
def pad6 (n : Nat) : String :=
  String.mk (List.replicate (6 - (toString n).length) '0') ++ toString n

/-- The output loop of `main`: a peak with an empty id receives
`unified_peak_<position, 1-based, zero-padded>`. -/
def assignIds (ps : List Peak) : List Peak :=
  ps.enum.map fun ip =>
    if ip.2.peak_id = "" then
      { ip.2 with peak_id := "unified_peak_" ++ pad6 (ip.1 + 1) }
    else ip.2

/-- Result of one run of `main`.  `written` is the content of the output
file (`none` when the run ends before opening it), `exitCode` the
completion status (`none` models dying on an uncaught exception). -/
structure MainResult where
  written : Option (List Peak)
  exitCode : Option Int
deriving DecidableEq, Repr

/-- `main`, with file discovery abstracted to the list of discovered
files (each a list of raw lines).  No configuration value is validated.
With no files the run logs an error and returns `1` before opening the
output.  Otherwise the pipeline runs, the output file is written, and
then the summary statistics divide by the number of written peaks:
a run with zero surviving peaks writes an empty file and dies on
`ZeroDivisionError` (`exitCode = none`). -/
def runMain (files : List (List String)) (target_length merge_distance : Int)
    (max_peaks_per_sample : Int) (remove_overlaps : Bool) : MainResult :=
  if files = [] then ⟨none, some 1⟩
  else
    let all_peaks := (files.map fun f => read_peak_file f max_peaks_per_sample).flatten
    let groups := groupByChrom all_peaks
    let processed := (groups.map fun g =>
      make_peaks_uniform_length (merge_close_peaks g.2 merge_distance) target_length).flatten
    let processed :=
      if remove_overlaps then remove_overlapping_peaks processed else processed
    let final := assignIds (List.insertionSort keyLE processed)
    ⟨some final, if final = [] then none else some 0⟩

example : Peak.distance_to ⟨"chr1", 0, 10, 5, "a"⟩ ⟨"chr1", 12, 20, 3, "b"⟩ = some 2 := by decide
example : Peak.distance_to ⟨"chr1", 0, 10, 5, "a"⟩ ⟨"chr2", 12, 20, 3, "b"⟩ = none := by decide
example : is_main_chromosome "chr01" = true := by decide
example : is_main_chromosome "chr23" = false := by decide
example : is_main_chromosome "chrX" = true := by decide
example : is_main_chromosome "chrM" = false := by decide
example : is_main_chromosome "chr" = false := by decide
example : merge_close_peaks [⟨"chr1", 205, 300, 8, "b"⟩, ⟨"chr1", 100, 200, 5, "a"⟩] 10
    = [⟨"chr1", 100, 300, 8, "a_b"⟩] := by decide
example : make_peaks_uniform_length [⟨"chr1", 100, 2500, 0, "p"⟩] 1000
    = [⟨"chr1", 100, 1100, 0, "p_piece_1"⟩, ⟨"chr1", 1100, 2100, 0, "p_piece_2"⟩,
       ⟨"chr1", 1500, 2500, 0, "p_piece_3"⟩] := by decide
example : make_peaks_uniform_length [⟨"chr1", 100, 300, 0, "e"⟩] 1000
    = [⟨"chr1", 0, 1000, 0, "e"⟩] := by decide
example : make_peaks_uniform_length [⟨"chr1", 0, 10, 0, "a"⟩, ⟨"chr1", 0, 25, 0, "b"⟩] 10
    = [⟨"chr1", 0, 10, 0, "a"⟩, ⟨"chr1", 0, 10, 0, "b_piece_2"⟩,
       ⟨"chr1", 10, 20, 0, "b_piece_3"⟩, ⟨"chr1", 15, 25, 0, "b_piece_4"⟩] := by decide
example : remove_overlapping_peaks [⟨"chr1", 100, 200, 5, "a"⟩, ⟨"chr1", 150, 250, 8, "b"⟩]
    = [⟨"chr1", 150, 250, 8, "b"⟩] := by decide
example : parseLine "chr1\t0\t1000\tp1\t5" = some ⟨"chr1", 0, 1000, 5, "p1"⟩ := by decide
example : parseLine "foo\t0\t10\tx" = none := by decide
example : parseLine "chr1\t0" = none := by decide
example : runMain [] 1000 1 50000 false = ⟨none, some 1⟩ := by decide
example : runMain [["foo\t0\t10\tx"]] 1000 1 50000 false = ⟨some [], none⟩ := by decide
example : runMain [["chr1\t0\t1000\tp1\t5"]] 1000 (-5) 50000 false
    = ⟨some [⟨"chr1", 0, 1000, 5, "p1"⟩], some 0⟩ := by decide
example : runMain [["chr1\t0\t900\t\t5"]] 1000 1 50000 false
    = ⟨some [⟨"chr1", 0, 1000, 5, "unified_peak_000001"⟩], some 0⟩ := by decide

/-! ## The merger sweep (C3, C7) -/

theorem distLEb_true_same_chrom {a b : Peak} {D : Int} (h : distLEb a b D = true) :
    a.chrom = b.chrom := by
  by_cases hc : a.chrom = b.chrom
  · exact hc
  · simp [distLEb, Peak.distance_to, hc] at h

theorem distance_to_of_same {a b : Peak} (hc : a.chrom = b.chrom) :
    a.distance_to b = some (if a.«end» < b.start then b.start - a.«end»
      else if b.«end» < a.start then a.start - b.«end» else 0) := by
  simp only [Peak.distance_to, hc, ne_eq, not_true_eq_false, if_false]
  split_ifs <;> rfl

theorem distLEb_of_same {a b : Peak} {D : Int} (hc : a.chrom = b.chrom) :
    distLEb a b D = decide ((if a.«end» < b.start then b.start - a.«end»
      else if b.«end» < a.start then a.start - b.«end» else 0) ≤ D) := by
  unfold distLEb
  rw [distance_to_of_same hc]

theorem keyLE_start_le {a b : Peak} (h : keyLE a b) (hc : a.chrom = b.chrom) :
    a.start ≤ b.start := by
  rcases h with h | ⟨_, h⟩
  · exact absurd (hc ▸ h) (lt_irrefl _)
  · exact h

/-- Head of the merge sweep: a non-empty output whose first record keeps
the accumulator's chromosome and start; moreover, when the accumulator's
interval lies more than `D` before its own start (the degenerate
right-gap situation), it is emitted unchanged. -/
theorem sweepMerge_head (D : Int) (hD : 0 ≤ D) :
    ∀ (rest : List Peak) (cur : Peak), (∀ m ∈ rest, keyLE cur m) →
      ∃ h t, sweepMerge D cur rest = h :: t ∧ h.chrom = cur.chrom ∧
        h.start = cur.start ∧ (D < cur.start - cur.«end» → h = cur) := by
  intro rest
  induction rest with
  | nil => exact fun cur _ => ⟨cur, [], rfl, rfl, rfl, fun _ => rfl⟩
  | cons n rest' ih =>
    intro cur hinv
    have hcn : keyLE cur n := hinv n (List.mem_cons_self _ _)
    simp only [sweepMerge]
    by_cases hd : distLEb cur n D = true
    · rw [if_pos hd]
      have hc : cur.chrom = n.chrom := distLEb_true_same_chrom hd
      have hs : cur.start ≤ n.start := keyLE_start_le hcn hc
      have hminv : ∀ m ∈ rest', keyLE (cur.merge_with n) m := by
        intro m hm
        rcases hinv m (List.mem_cons_of_mem _ hm) with h | ⟨e, h⟩
        · exact Or.inl h
        · exact Or.inr ⟨e, le_trans (min_le_left _ _) h⟩
      obtain ⟨h, t, heq, hch, hst, _⟩ := ih (cur.merge_with n) hminv
      refine ⟨h, t, heq, hch, ?_, ?_⟩
      · exact hst.trans (min_eq_left hs)
      · intro hgap
        exfalso
        have hgap' : cur.«end» < n.start := by omega
        rw [distLEb_of_same hc, if_pos hgap'] at hd
        have := of_decide_eq_true hd
        omega
    · rw [if_neg hd]
      exact ⟨cur, _, rfl, rfl, rfl, fun _ => rfl⟩

/-- Invariant of the merge sweep: on a sorted suffix the output is a
`(chrom, start)`-chain, and consecutive outputs are never within the
merging distance. -/
theorem sweepMerge_chains (D : Int) (hD : 0 ≤ D) :
    ∀ (rest : List Peak) (cur : Peak), (∀ m ∈ rest, keyLE cur m) →
      List.Pairwise keyLE rest →
      List.Chain' keyLE (sweepMerge D cur rest) ∧
      List.Chain' (fun a b => distLEb a b D = false) (sweepMerge D cur rest) := by
  intro rest
  induction rest with
  | nil => intro cur _ _; constructor <;> simp [sweepMerge]
  | cons n rest' ih =>
    intro cur hinv hp
    have hcn : keyLE cur n := hinv n (List.mem_cons_self _ _)
    rcases List.pairwise_cons.mp hp with ⟨hn, hp'⟩
    simp only [sweepMerge]
    by_cases hd : distLEb cur n D = true
    · rw [if_pos hd]
      have hminv : ∀ m ∈ rest', keyLE (cur.merge_with n) m := by
        intro m hm
        rcases hinv m (List.mem_cons_of_mem _ hm) with h | ⟨e, h⟩
        · exact Or.inl h
        · exact Or.inr ⟨e, le_trans (min_le_left _ _) h⟩
      exact ih (cur.merge_with n) hminv hp'
    · rw [if_neg hd]
      obtain ⟨h, t, heq, hch, hst, hcond⟩ := sweepMerge_head D hD rest' n hn
      obtain ⟨ch1, ch2⟩ := ih n hn hp'
      rw [heq] at ch1 ch2 ⊢
      have hdf : distLEb cur n D = false := by
        cases hb : distLEb cur n D
        · rfl
        · exact absurd hb hd
      have hkey : keyLE cur h := by
        rcases hcn with hlt | ⟨e, hs⟩
        · exact Or.inl (by rw [hch]; exact hlt)
        · exact Or.inr ⟨by rw [hch]; exact e, by rw [hst]; exact hs⟩
      have hgapcur : distLEb cur h D = false := by
        by_cases hc : cur.chrom = n.chrom
        · have hs : cur.start ≤ n.start := keyLE_start_le hcn hc
          rw [distLEb_of_same hc] at hdf
          by_cases hb1 : cur.«end» < n.start
          · rw [if_pos hb1] at hdf
            have hgap := of_decide_eq_false hdf
            have hch' : cur.chrom = h.chrom := by rw [hch]; exact hc
            rw [distLEb_of_same hch', hst, if_pos hb1]
            exact decide_eq_false hgap
          · rw [if_neg hb1] at hdf
            by_cases hb2 : n.«end» < cur.start
            · rw [if_pos hb2] at hdf
              have hgap := of_decide_eq_false hdf
              have he : h = n := hcond (by omega)
              rw [he, distLEb_of_same hc, if_neg hb1, if_pos hb2]
              exact decide_eq_false hgap
            · rw [if_neg hb2] at hdf
              exact absurd hD (of_decide_eq_false hdf)
        · have hc' : cur.chrom ≠ h.chrom := by rw [hch]; exact hc
          simp [distLEb, Peak.distance_to, hc']
      exact ⟨List.chain'_cons.mpr ⟨hkey, ch1⟩, List.chain'_cons.mpr ⟨hgapcur, ch2⟩⟩

theorem merge_close_peaks_chains (peaks : List Peak) (D : Int) (hD : 0 ≤ D) :
    List.Chain' keyLE (merge_close_peaks peaks D) ∧
    List.Chain' (fun a b => distLEb a b D = false) (merge_close_peaks peaks D) := by
  unfold merge_close_peaks
  have hs := List.sorted_insertionSort keyLE peaks
  rcases hsl : List.insertionSort keyLE peaks with _ | ⟨p, rest⟩
  · constructor <;> simp
  · rw [hsl] at hs
    rcases List.sorted_cons.mp hs with ⟨hinv, hp⟩
    exact sweepMerge_chains D hD rest p hinv hp

/-- C3: for every (non-empty) input and threshold `D ≥ 0` the merger's
output is sorted ascending by `(chromosome, start)` and every pair of
chromosome-adjacent outputs lies at distance strictly greater than `D`
(`distance_to` is defined — `some` — exactly on equal chromosomes). -/
theorem c3_merger_sorted_gapped (peaks : List Peak) (D : Int) (hne : peaks ≠ [])
    (hD : 0 ≤ D) :
    List.Sorted keyLE (merge_close_peaks peaks D) ∧
    List.Chain' (fun prv nxt => ∀ d, prv.distance_to nxt = some d → D < d)
      (merge_close_peaks peaks D) := by
  obtain ⟨h1, h2⟩ := merge_close_peaks_chains peaks D hD
  refine ⟨List.chain'_iff_pairwise.mp h1, h2.imp ?_⟩
  intro a b hab d hd
  unfold distLEb at hab
  rw [hd] at hab
  simpa using hab

/-- Witness for C3 at a concrete two-record input given unsorted. -/
theorem c3_merger_sorted_gapped_witness :
    ([⟨"chr1", 12, 20, 3, "b"⟩, ⟨"chr1", 0, 10, 5, "a"⟩] : List Peak) ≠ [] ∧ (0 : Int) ≤ 1 ∧
    (List.Sorted keyLE
        (merge_close_peaks [⟨"chr1", 12, 20, 3, "b"⟩, ⟨"chr1", 0, 10, 5, "a"⟩] 1) ∧
      List.Chain' (fun prv nxt => ∀ d, prv.distance_to nxt = some d → 1 < d)
        (merge_close_peaks [⟨"chr1", 12, 20, 3, "b"⟩, ⟨"chr1", 0, 10, 5, "a"⟩] 1)) :=
  ⟨by decide, by decide,
    c3_merger_sorted_gapped [⟨"chr1", 12, 20, 3, "b"⟩, ⟨"chr1", 0, 10, 5, "a"⟩] 1
      (by decide) (by decide)⟩

theorem sweepMerge_no_merge (D : Int) :
    ∀ (rest : List Peak) (cur : Peak),
      List.Chain' (fun a b => distLEb a b D = false) (cur :: rest) →
      sweepMerge D cur rest = cur :: rest := by
  intro rest
  induction rest with
  | nil => intro cur _; rfl
  | cons n rest' ih =>
    intro cur hch
    rcases List.chain'_cons.mp hch with ⟨h1, h2⟩
    simp only [sweepMerge]
    rw [if_neg (by simp [h1]), ih n h2]

theorem merge_close_peaks_of_chains (l : List Peak) (D : Int)
    (hs : List.Sorted keyLE l)
    (hg : List.Chain' (fun a b => distLEb a b D = false) l) :
    merge_close_peaks l D = l := by
  unfold merge_close_peaks
  rw [List.Sorted.insertionSort_eq hs]
  cases l with
  | nil => rfl
  | cons p rest => exact sweepMerge_no_merge D rest p hg

/-- C7: the merger is idempotent for every input list and threshold
`D ≥ 0`. -/
theorem c7_merger_idempotent (peaks : List Peak) (D : Int) (hD : 0 ≤ D) :
    merge_close_peaks (merge_close_peaks peaks D) D = merge_close_peaks peaks D := by
  obtain ⟨h1, h2⟩ := merge_close_peaks_chains peaks D hD
  exact merge_close_peaks_of_chains _ D (List.chain'_iff_pairwise.mp h1) h2

/-- Witness for C7 at a concrete input whose two records do merge. -/
theorem c7_merger_idempotent_witness :
    (0 : Int) ≤ 1 ∧
    merge_close_peaks
        (merge_close_peaks [⟨"chr1", 0, 10, 5, "a"⟩, ⟨"chr1", 8, 30, 3, "b"⟩] 1) 1
      = merge_close_peaks [⟨"chr1", 0, 10, 5, "a"⟩, ⟨"chr1", 8, 30, 3, "b"⟩] 1 :=
  ⟨by decide, c7_merger_idempotent [⟨"chr1", 0, 10, 5, "a"⟩, ⟨"chr1", 8, 30, 3, "b"⟩] 1
    (by decide)⟩

/-! ## Structure of the split branch (C6) -/

theorem splitLoop_mem_length {chrom : String} {score : Int} {pid : String}
    {pstart pend L : Int} :
    ∀ (fuel : Nat) (pos : Int) (c : Nat) (w : Peak),
      w ∈ splitLoop chrom score pid pstart pend L fuel pos c → w.«end» - w.start = L := by
  intro fuel
  induction fuel with
  | zero => intro pos c w hw; simp [splitLoop] at hw
  | succ fuel ih =>
    intro pos c w hw
    simp only [splitLoop] at hw
    split_ifs at hw with h1 h2 h3
    · simp at hw
    · rcases List.mem_cons.mp hw with h | h
      · subst h; dsimp only; omega
      · exact ih _ _ _ h
    · rcases List.mem_cons.mp hw with h | h
      · subst h; dsimp only; omega
      · exact ih _ _ _ h
    · simp at hw

/-- Coverage of the split loop: with positive width, enough fuel and a
clamp that cannot break (`pstart + L ≤ pend`), every point of
`[pos, pend)` lies in some emitted window. -/
theorem splitLoop_covers {chrom : String} {score : Int} {pid : String}
    {pstart pend L : Int} (hL : 0 < L) (hcl : pstart + L ≤ pend) :
    ∀ (fuel : Nat) (pos : Int) (c : Nat),
      (pend - pos).toNat < fuel → pstart ≤ pos →
      ∀ x : Int, pos ≤ x → x < pend →
        ∃ w ∈ splitLoop chrom score pid pstart pend L fuel pos c,
          w.start ≤ x ∧ x < w.«end» := by
  intro fuel
  induction fuel with
  | zero => intro pos c hfuel hpos x hx1 hx2; omega
  | succ fuel ih =>
    intro pos c hfuel hpos x hx1 hx2
    have hposlt : pos < pend := by omega
    simp only [splitLoop]
    rw [if_pos hposlt]
    by_cases hover : pend < pos + L
    · rw [if_pos hover, if_neg (by omega : ¬(pend - L < pstart))]
      exact ⟨_, List.mem_cons_self _ _, by dsimp only; omega, by dsimp only; omega⟩
    · rw [if_neg hover]
      by_cases hxw : x < pos + L
      · exact ⟨_, List.mem_cons_self _ _, by dsimp only; omega, by dsimp only; omega⟩
      · obtain ⟨w, hw, h1, h2⟩ := ih (pos + L) (c + 1) (by omega) (by omega) x (by omega) hx2
        exact ⟨w, List.mem_cons_of_mem _ hw, h1, h2⟩

/-- Every window emitted by the split loop stays inside
`[pstart, pend]`. -/
theorem splitLoop_mem_inside {chrom : String} {score : Int} {pid : String}
    {pstart pend L : Int} (hL : 0 < L) (hcl : pstart + L ≤ pend) :
    ∀ (fuel : Nat) (pos : Int) (c : Nat), pstart ≤ pos →
      ∀ w ∈ splitLoop chrom score pid pstart pend L fuel pos c,
        pstart ≤ w.start ∧ w.«end» ≤ pend := by
  intro fuel
  induction fuel with
  | zero => intro pos c hpos w hw; simp [splitLoop] at hw
  | succ fuel ih =>
    intro pos c hpos w hw
    simp only [splitLoop] at hw
    split_ifs at hw with h1 h2 h3
    · simp at hw
    · rcases List.mem_cons.mp hw with h | h
      · subst h; exact ⟨by dsimp only; omega, by dsimp only; omega⟩
      · exact ih pend (c + 1) (by omega) w h
    · rcases List.mem_cons.mp hw with h | h
      · subst h; exact ⟨by dsimp only; omega, by dsimp only; omega⟩
      · exact ih (pos + L) (c + 1) (by omega) w h
    · simp at hw

/-- Closed form of the split loop: `(pend - pos).toNat / L.toNat` full
consecutive windows starting at `pos`, followed — exactly when `L` does
not divide the remaining span — by one final window shifted back to end
at `pend`. -/
theorem splitLoop_closed {chrom : String} {score : Int} {pid : String}
    {pstart pend L : Int} (hL : 0 < L) (hcl : pstart + L ≤ pend) :
    ∀ (fuel : Nat) (pos : Int) (c : Nat), (pend - pos).toNat < fuel → pos ≤ pend →
      splitLoop chrom score pid pstart pend L fuel pos c =
        (List.range ((pend - pos).toNat / L.toNat)).map (fun i =>
          ⟨chrom, pos + (i : Int) * L, pos + (i : Int) * L + L, score,
            pieceId pid (c + i + 1)⟩)
        ++ (if (pend - pos).toNat % L.toNat = 0 then []
            else [⟨chrom, pend - L, pend, score,
              pieceId pid (c + (pend - pos).toNat / L.toNat + 1)⟩]) := by
  intro fuel
  induction fuel with
  | zero => intro pos c hfuel hpos; exact absurd hfuel (Nat.not_lt_zero _)
  | succ fuel ih =>
    intro pos c hfuel hpos
    simp only [splitLoop]
    by_cases hposlt : pos < pend
    · rw [if_pos hposlt]
      by_cases hover : pend < pos + L
      · rw [if_pos hover, if_neg (by omega : ¬(pend - L < pstart))]
        have hrec : splitLoop chrom score pid pstart pend L fuel pend (c + 1) = [] := by
          rw [ih pend (c + 1) (by omega) (le_refl _)]
          simp
        rw [hrec]
        have hnLn : (pend - pos).toNat < L.toNat := by omega
        rw [Nat.div_eq_of_lt hnLn, Nat.mod_eq_of_lt hnLn,
          if_neg (by omega : ¬((pend - pos).toNat = 0))]
        simp
      · rw [if_neg hover]
        have hstep : pos + L ≤ pend := by omega
        rw [ih (pos + L) (c + 1) (by omega) (by omega)]
        have hn' : (pend - (pos + L)).toNat = (pend - pos).toNat - L.toNat := by omega
        have hnL : L.toNat ≤ (pend - pos).toNat := by omega
        have hLn0 : 0 < L.toNat := by omega
        rw [hn', Nat.div_eq_sub_div hLn0 hnL, Nat.mod_eq_sub_mod hnL,
          List.range_succ_eq_map]
        simp only [List.map_cons, List.map_map, List.cons_append]
        congr 1
        · simp
        · congr 1
          · refine List.map_congr_left ?_
            intro i _
            simp only [Function.comp_apply, Nat.succ_eq_add_one]
            congr 1
            · push_cast
              ring
            · push_cast
              ring
            · congr 1
              omega
          · split_ifs with hz
            · rfl
            · congr 3
              omega
    · rw [if_neg hposlt]
      have h0 : (pend - pos).toNat = 0 := by omega
      rw [h0]
      simp

/-- C6: splitting a record of length `> L` yields windows of length
exactly `L`, all inside `[start, end)`, jointly covering every point of
`[start, end)` (no gap), and pairwise disjoint except possibly the final
window with its immediate predecessor (the backward-shifted tail). -/
theorem c6_split_structure (p : Peak) (L : Int) (hL : 0 < L)
    (hlen : L < p.«end» - p.start) (ws : List Peak)
    (hws : ws = make_peaks_uniform_length [p] L) :
    (∀ w ∈ ws, w.«end» - w.start = L) ∧
    (∀ w ∈ ws, p.start ≤ w.start ∧ w.«end» ≤ p.«end») ∧
    (∀ x : Int, p.start ≤ x → x < p.«end» → ∃ w ∈ ws, w.start ≤ x ∧ x < w.«end») ∧
    (∀ (i j : Nat) (hi : i < ws.length) (hj : j < ws.length), i < j →
      ¬(i + 2 = ws.length ∧ j + 1 = ws.length) → ws[i].«end» ≤ ws[j].start) := by
  have h1 : ¬(p.«end» - p.start = L) := by omega
  have h2 : ¬(p.«end» - p.start < L) := by omega
  have key : make_peaks_uniform_length [p] L
      = splitLoop p.chrom p.score p.peak_id p.start p.«end» L
        ((p.«end» - p.start).toNat + 1) p.start 0 := by
    simp only [make_peaks_uniform_length, uniformGo, if_neg h1, if_neg h2, List.append_nil]
  have hcl : p.start + L ≤ p.«end» := by omega
  subst hws
  rw [key]
  refine ⟨fun w hw => splitLoop_mem_length _ _ _ _ hw,
    fun w hw => splitLoop_mem_inside hL hcl _ _ _ (le_refl _) w hw,
    fun x hx1 hx2 => splitLoop_covers hL hcl _ _ _ (by omega) (le_refl _) x hx1 hx2,
    ?_⟩
  rw [splitLoop_closed hL hcl _ _ _ (by omega) (by omega)]
  have hLn0 : 0 < L.toNat := by omega
  have hdm := Nat.div_add_mod (p.«end» - p.start).toNat L.toNat
  have hLcast : ((L.toNat : Nat) : Int) = L := Int.toNat_of_nonneg hL.le
  have hncast : (((p.«end» - p.start).toNat : Nat) : Int) = p.«end» - p.start :=
    Int.toNat_of_nonneg (by omega)
  by_cases hr : (p.«end» - p.start).toNat % L.toNat = 0
  · rw [if_pos hr, List.append_nil]
    intro i j hi hj hij hnot
    simp only [List.getElem_map, List.getElem_range]
    have hij' : (i : Int) + 1 ≤ (j : Int) := by exact_mod_cast hij
    have hmul : ((i : Int) + 1) * L ≤ (j : Int) * L :=
      mul_le_mul_of_nonneg_right hij' hL.le
    rw [add_mul, one_mul] at hmul
    linarith
  · rw [if_neg hr]
    intro i j hi hj hij hnot
    by_cases hjq : j < (p.«end» - p.start).toNat / L.toNat
    · have hiq : i < (p.«end» - p.start).toNat / L.toNat := lt_trans hij hjq
      rw [List.getElem_append_left (by simpa using hiq),
        List.getElem_append_left (by simpa using hjq)]
      simp only [List.getElem_map, List.getElem_range]
      have hij' : (i : Int) + 1 ≤ (j : Int) := by exact_mod_cast hij
      have hmul : ((i : Int) + 1) * L ≤ (j : Int) * L :=
        mul_le_mul_of_nonneg_right hij' hL.le
      rw [add_mul, one_mul] at hmul
      linarith
    · have hjq' : j = (p.«end» - p.start).toNat / L.toNat := by
        simp only [List.length_append, List.length_map, List.length_range,
          List.length_singleton] at hj
        omega
      have hiq : i < (p.«end» - p.start).toNat / L.toNat := hjq' ▸ hij
      have hi2 : i + 2 ≤ (p.«end» - p.start).toNat / L.toNat := by
        by_contra hcon
        refine hnot ⟨?_, ?_⟩ <;>
          simp only [List.length_append, List.length_map, List.length_range,
            List.length_singleton] <;>
          omega
      rw [List.getElem_append_left (by simpa using hiq),
        List.getElem_append_right (by simpa using hjq'.ge)]
      simp only [List.getElem_map, List.getElem_range, List.length_map,
        List.length_range, hjq', Nat.sub_self, List.getElem_cons_zero]
      have hi2' : ((i : Int) + 2) ≤ (((p.«end» - p.start).toNat / L.toNat : Nat) : Int) := by
        exact_mod_cast hi2
      have hmul : ((i : Int) + 2) * L
          ≤ (((p.«end» - p.start).toNat / L.toNat : Nat) : Int) * L :=
        mul_le_mul_of_nonneg_right hi2' hL.le
      have hdm' : ((L.toNat : Nat) : Int)
            * (((p.«end» - p.start).toNat / L.toNat : Nat) : Int)
            + (((p.«end» - p.start).toNat % L.toNat : Nat) : Int)
          = (((p.«end» - p.start).toNat : Nat) : Int) := by
        exact_mod_cast hdm
      rw [hLcast, hncast] at hdm'
      have hr0 : (0 : Int) ≤ (((p.«end» - p.start).toNat % L.toNat : Nat) : Int) :=
        Int.natCast_nonneg _
      rw [add_mul] at hmul
      linarith

/-- Witness for C6 at the spec's split example. -/
theorem c6_split_structure_witness :
    (0 : Int) < 1000 ∧ (1000 : Int) < 2500 - 100 ∧
    ((∀ w ∈ make_peaks_uniform_length [⟨"chr1", 100, 2500, 5, "p"⟩] 1000,
        w.«end» - w.start = 1000) ∧
      (∀ w ∈ make_peaks_uniform_length [⟨"chr1", 100, 2500, 5, "p"⟩] 1000,
        (100 : Int) ≤ w.start ∧ w.«end» ≤ 2500) ∧
      (∀ x : Int, (100 : Int) ≤ x → x < 2500 →
        ∃ w ∈ make_peaks_uniform_length [⟨"chr1", 100, 2500, 5, "p"⟩] 1000,
          w.start ≤ x ∧ x < w.«end») ∧
      (∀ (i j : Nat)
        (hi : i < (make_peaks_uniform_length [⟨"chr1", 100, 2500, 5, "p"⟩] 1000).length)
        (hj : j < (make_peaks_uniform_length [⟨"chr1", 100, 2500, 5, "p"⟩] 1000).length),
        i < j →
        ¬(i + 2 = (make_peaks_uniform_length [⟨"chr1", 100, 2500, 5, "p"⟩] 1000).length ∧
          j + 1 = (make_peaks_uniform_length [⟨"chr1", 100, 2500, 5, "p"⟩] 1000).length) →
        (make_peaks_uniform_length [⟨"chr1", 100, 2500, 5, "p"⟩] 1000)[i].«end»
          ≤ (make_peaks_uniform_length [⟨"chr1", 100, 2500, 5, "p"⟩] 1000)[j].start)) :=
  ⟨by decide, by decide,
    c6_split_structure ⟨"chr1", 100, 2500, 5, "p"⟩ 1000 (by decide) (by decide) _ rfl⟩

/-! ## The overlap resolver (C4) -/

/-- Head of the resolver sweep: a non-empty output whose first record has
the accumulator's chromosome and a start no smaller than the
accumulator's. -/
theorem resolveSweep_head :
    ∀ (rest : List Peak) (cur : Peak),
      (∀ m ∈ rest, cur.chrom = m.chrom → cur.start ≤ m.start) →
      List.Pairwise (fun a b : Peak => a.chrom = b.chrom → a.start ≤ b.start) rest →
      ∃ h t, resolveSweep cur rest = h :: t ∧ h.chrom = cur.chrom ∧ cur.start ≤ h.start := by
  intro rest
  induction rest with
  | nil => exact fun cur _ _ => ⟨cur, [], rfl, rfl, le_refl _⟩
  | cons n rest' ih =>
    intro cur hinv hp
    rcases List.pairwise_cons.mp hp with ⟨hn, hp'⟩
    simp only [resolveSweep]
    by_cases hov : cur.chrom = n.chrom ∧ n.start < cur.«end»
    · rw [if_pos hov]
      by_cases hsc : n.score ≤ cur.score
      · rw [if_pos hsc]
        exact ih cur (fun m hm => hinv m (List.mem_cons_of_mem _ hm)) hp'
      · rw [if_neg hsc]
        obtain ⟨h, t, heq, hch, hst⟩ := ih n hn hp'
        exact ⟨h, t, heq, hch.trans hov.1.symm,
          le_trans (hinv n (List.mem_cons_self _ _) hov.1) hst⟩
    · rw [if_neg hov]
      exact ⟨cur, _, rfl, rfl, le_refl _⟩

/-- Invariant of the resolver sweep: chromosome-adjacent outputs never
strictly overlap. -/
theorem resolveSweep_chain :
    ∀ (rest : List Peak) (cur : Peak),
      (∀ m ∈ rest, cur.chrom = m.chrom → cur.start ≤ m.start) →
      List.Pairwise (fun a b : Peak => a.chrom = b.chrom → a.start ≤ b.start) rest →
      List.Chain' (fun a b => a.chrom = b.chrom → a.«end» ≤ b.start)
        (resolveSweep cur rest) := by
  intro rest
  induction rest with
  | nil => intro cur _ _; simp [resolveSweep]
  | cons n rest' ih =>
    intro cur hinv hp
    rcases List.pairwise_cons.mp hp with ⟨hn, hp'⟩
    simp only [resolveSweep]
    by_cases hov : cur.chrom = n.chrom ∧ n.start < cur.«end»
    · rw [if_pos hov]
      by_cases hsc : n.score ≤ cur.score
      · rw [if_pos hsc]
        exact ih cur (fun m hm => hinv m (List.mem_cons_of_mem _ hm)) hp'
      · rw [if_neg hsc]
        exact ih n hn hp'
    · rw [if_neg hov]
      obtain ⟨h, t, heq, hch, hst⟩ := resolveSweep_head rest' n hn hp'
      rw [heq]
      refine List.chain'_cons.mpr ⟨?_, heq ▸ ih n hn hp'⟩
      intro hce
      have hcn : cur.chrom = n.chrom := hce.trans hch
      have hno : ¬(n.start < cur.«end») := fun hlt => hov ⟨hcn, hlt⟩
      omega

theorem remove_overlapping_chain (peaks : List Peak) :
    List.Chain' (fun a b => a.chrom = b.chrom → a.«end» ≤ b.start)
      (remove_overlapping_peaks peaks) := by
  unfold remove_overlapping_peaks
  have hs := List.sorted_insertionSort roLE peaks
  rcases hsl : List.insertionSort roLE peaks with _ | ⟨p, rest⟩
  · simp
  · rw [hsl] at hs
    rcases List.sorted_cons.mp hs with ⟨hinv, hp⟩
    have hinv' : ∀ m ∈ rest, p.chrom = m.chrom → p.start ≤ m.start := by
      intro m hm hc
      rcases hinv m hm with h | ⟨_, h | ⟨h, _⟩⟩
      · exact absurd (hc ▸ h) (lt_irrefl _)
      · exact le_of_lt h
      · exact le_of_eq h
    have hp' : List.Pairwise (fun a b : Peak => a.chrom = b.chrom → a.start ≤ b.start) rest := by
      refine hp.imp ?_
      intro a b hab hc
      rcases hab with h | ⟨_, h | ⟨h, _⟩⟩
      · exact absurd (hc ▸ h) (lt_irrefl _)
      · exact le_of_lt h
      · exact le_of_eq h
    exact resolveSweep_chain rest p hinv' hp'

/-- The local resolution rule on a strictly overlapping same-chromosome
pair: the higher score survives; at equal scores the candidate that comes
first under the `(chrom, start, -score)` stable sort wins. -/
theorem remove_overlapping_pair (p q : Peak) (hc : p.chrom = q.chrom)
    (h1 : q.start < p.«end») (h2 : p.start < q.«end») :
    remove_overlapping_peaks [p, q] =
      [if q.score < p.score then p
       else if p.score < q.score then q
       else if p.start ≤ q.start then p else q] := by
  unfold remove_overlapping_peaks
  by_cases hle : roLE p q
  · have hpq : p.start ≤ q.start := by
      rcases hle with hlt | ⟨_, hlt | ⟨he, _⟩⟩
      · exact absurd (hc ▸ hlt) (lt_irrefl _)
      · exact le_of_lt hlt
      · exact le_of_eq he
    have hsorted : List.insertionSort roLE [p, q] = [p, q] := by
      simp [List.insertionSort, List.orderedInsert, if_pos hle]
    rw [hsorted]
    show resolveSweep p [q] = _
    simp only [resolveSweep]
    rw [if_pos ⟨hc, h1⟩]
    by_cases hs : q.score ≤ p.score
    · rw [if_pos hs]
      show [p] = _
      split_ifs with hA hB
      · rfl
      · exact absurd hB (not_lt.mpr hs)
      · rfl
    · rw [if_neg hs]
      show [q] = _
      split_ifs with hA hB
      · exact absurd hA (lt_asymm (not_le.mp hs))
      · rfl
      · exact absurd (not_le.mp hs) hB
  · have hn1 : ¬(p.start < q.start) := fun hlt => hle (Or.inr ⟨hc, Or.inl hlt⟩)
    have hn2 : p.start = q.start → p.score < q.score := fun he => by
      by_contra hge
      exact hle (Or.inr ⟨hc, Or.inr ⟨he, not_lt.mp hge⟩⟩)
    have hsorted : List.insertionSort roLE [p, q] = [q, p] := by
      simp [List.insertionSort, List.orderedInsert, if_neg hle]
    rw [hsorted]
    show resolveSweep q [p] = _
    simp only [resolveSweep]
    rw [if_pos ⟨hc.symm, h2⟩]
    by_cases hs : p.score ≤ q.score
    · rw [if_pos hs]
      show [q] = _
      split_ifs with hA hB hC
      · exact absurd hA (not_lt.mpr hs)
      · rfl
      · have heq : p.start = q.start := le_antisymm hC (not_lt.mp hn1)
        exact absurd (hn2 heq) hB
      · rfl
    · rw [if_neg hs]
      show [p] = _
      split_ifs with hA hB hC
      · rfl
      · exact absurd hB (lt_asymm (not_le.mp hs))
      · exact absurd (not_le.mp hs) hA
      · exact absurd (not_le.mp hs) hA

/-- C4: no two chromosome-adjacent outputs of the resolver strictly
overlap (touching is allowed), and on a strictly overlapping candidate
pair the higher score survives, the sort-order-first candidate at equal
scores. -/
theorem c4_resolver_correct :
    (∀ peaks : List Peak,
      List.Chain' (fun a b => a.chrom = b.chrom → a.«end» ≤ b.start)
        (remove_overlapping_peaks peaks)) ∧
    (∀ p q : Peak, p.chrom = q.chrom → q.start < p.«end» → p.start < q.«end» →
      remove_overlapping_peaks [p, q] =
        [if q.score < p.score then p
         else if p.score < q.score then q
         else if p.start ≤ q.start then p else q]) :=
  ⟨remove_overlapping_chain, remove_overlapping_pair⟩

/-- Witness for C4: a three-record genome-wide input for the adjacency
part and the spec's resolve example for the pair part. -/
theorem c4_resolver_correct_witness :
    List.Chain' (fun a b => a.chrom = b.chrom → a.«end» ≤ b.start)
      (remove_overlapping_peaks
        [⟨"chr1", 100, 200, 5, "a"⟩, ⟨"chr1", 150, 250, 8, "b"⟩, ⟨"chr2", 0, 50, 1, "c"⟩]) ∧
    (("chr1" : String) = "chr1" ∧ (150 : Int) < 200 ∧ (100 : Int) < 250 ∧
      remove_overlapping_peaks [⟨"chr1", 100, 200, 5, "a"⟩, ⟨"chr1", 150, 250, 8, "b"⟩] =
        [if (8 : Int) < 5 then ⟨"chr1", 100, 200, 5, "a"⟩
         else if (5 : Int) < 8 then ⟨"chr1", 150, 250, 8, "b"⟩
         else if (100 : Int) ≤ 150 then ⟨"chr1", 100, 200, 5, "a"⟩
         else ⟨"chr1", 150, 250, 8, "b"⟩]) :=
  ⟨c4_resolver_correct.1 _,
    rfl, by decide, by decide,
    c4_resolver_correct.2 ⟨"chr1", 100, 200, 5, "a"⟩ ⟨"chr1", 150, 250, 8, "b"⟩ rfl
      (by decide) (by decide)⟩

/-! ## Failure semantics of `main` (C2) -/

/-- C2 counterexample: a run whose only file holds a single record on a
non-primary chromosome has zero surviving records, yet the output file is
written (empty) before the run dies on the statistics division — the
claim's "no output file is written for such a run" fails. -/
theorem c2_zero_survivors_counterexample :
    (runMain [["foo\t0\t10\tx"]] 1000 1 50000 false).written = some [] ∧
    (runMain [["foo\t0\t10\tx"]] 1000 1 50000 false).exitCode = none := by decide

/-- C2 amended: only the zero-input-files case is fatal before output
(error message, completion status 1, no output file).  A run with zero
surviving records writes an empty output file and then dies on an
unhandled `ZeroDivisionError` in the summary statistics; and the
configuration is not validated — e.g. a run with negative
`merge_distance` completes normally with status 0 and written output. -/
theorem c2_failure_semantics :
    (∀ (tl md cap : Int) (ro : Bool), runMain [] tl md cap ro = ⟨none, some 1⟩) ∧
    (∀ (files : List (List String)) (tl md cap : Int) (ro : Bool), files ≠ [] →
      (files.map fun f => read_peak_file f cap).flatten = [] →
      runMain files tl md cap ro = ⟨some [], none⟩) ∧
    runMain [["chr1\t0\t1000\tp1\t5"]] 1000 (-5) 50000 false
      = ⟨some [⟨"chr1", 0, 1000, 5, "p1"⟩], some 0⟩ := by
  refine ⟨fun tl md cap ro => by simp [runMain], ?_, by decide⟩
  intro files tl md cap ro hne hempty
  unfold runMain
  rw [if_neg hne, hempty]
  simp [groupByChrom, remove_overlapping_peaks, assignIds, List.insertionSort]

/-- Witness for C2 (amended), instantiating the two quantified parts. -/
theorem c2_failure_semantics_witness :
    runMain [] 1000 1 50000 false = ⟨none, some 1⟩ ∧
    runMain [["foo\t0\t10\tx"]] 1000 1 50000 true = ⟨some [], none⟩ :=
  ⟨c2_failure_semantics.1 1000 1 50000 false,
    c2_failure_semantics.2.1 [["foo\t0\t10\tx"]] 1000 1 50000 true (by decide) (by decide)⟩

/-! ## Split-piece identifiers (C8) -/

theorem splitLoop_getElem_id {chrom : String} {score : Int} {pid : String}
    {pstart pend L : Int} :
    ∀ (fuel : Nat) (pos : Int) (c : Nat) (j : Nat)
      (hj : j < (splitLoop chrom score pid pstart pend L fuel pos c).length),
      (splitLoop chrom score pid pstart pend L fuel pos c)[j].peak_id
        = pieceId pid (c + j + 1) := by
  intro fuel
  induction fuel with
  | zero => intro pos c j hj; simp [splitLoop] at hj
  | succ fuel ih =>
    intro pos c j hj
    simp only [splitLoop] at hj ⊢
    split_ifs at hj ⊢ with h1 h2 h3
    · simp at hj
    · cases j with
      | zero => rfl
      | succ j =>
        rw [List.getElem_cons_succ, ih]
        congr 1
        omega
    · cases j with
      | zero => rfl
      | succ j =>
        rw [List.getElem_cons_succ, ih]
        congr 1
        omega
    · simp at hj

/-- C8 counterexample: with two inputs, the first split window of the
second peak carries index 2 (the running length of the whole output
list), not the per-parent index 1 claimed. -/
theorem c8_piece_index_counterexample :
    (make_peaks_uniform_length
      [⟨"chr1", 0, 10, 0, "a"⟩, ⟨"chr1", 0, 25, 0, "b"⟩] 10).map Peak.peak_id
      = ["a", "b_piece_2", "b_piece_3", "b_piece_4"] ∧
    ("b_piece_2" : String) ≠ "b_piece_1" := by decide

/-- C8 amended: the split index appended to the parent id is 1-based but
counts positions in the whole accumulated output of the normalizer call,
not windows of the parent; when the split record is the sole input the
`j`-th window (0-based) carries index `j + 1`. -/
theorem c8_split_ids (p : Peak) (L : Int) (hL : 0 < L) (hlen : L < p.«end» - p.start) :
    ∀ (j : Nat) (hj : j < (make_peaks_uniform_length [p] L).length),
      (make_peaks_uniform_length [p] L)[j].peak_id = pieceId p.peak_id (j + 1) := by
  have h1 : ¬(p.«end» - p.start = L) := by omega
  have h2 : ¬(p.«end» - p.start < L) := by omega
  have key : make_peaks_uniform_length [p] L
      = splitLoop p.chrom p.score p.peak_id p.start p.«end» L
        ((p.«end» - p.start).toNat + 1) p.start 0 := by
    simp only [make_peaks_uniform_length, uniformGo, if_neg h1, if_neg h2, List.append_nil]
  intro j
  rw [key]
  intro hj
  rw [splitLoop_getElem_id]
  congr 1
  omega

/-- Witness for C8 (amended) on the spec's split example. -/
theorem c8_split_ids_witness :
    (0 : Int) < 1000 ∧ (1000 : Int) < 2500 - 100 ∧
    ∀ (j : Nat) (hj : j < (make_peaks_uniform_length [⟨"chr1", 100, 2500, 5, "p"⟩] 1000).length),
      (make_peaks_uniform_length [⟨"chr1", 100, 2500, 5, "p"⟩] 1000)[j].peak_id
        = pieceId "p" (j + 1) :=
  ⟨by decide, by decide,
    c8_split_ids ⟨"chr1", 100, 2500, 5, "p"⟩ 1000 (by decide) (by decide)⟩

/-! ## The chromosome filter (C5) -/

/-- C5 counterexample: `"chr01"` passes `is_main_chromosome` although it
is not one of the claim's 24 exact names `chr1`…`chr22`, `chrX`, `chrY`. -/
theorem c5_filter_counterexample :
    is_main_chromosome "chr01" = true ∧ "chr01" ∉ claimPrimaryChromosomes := by decide

/-- C5 amended: a record's chromosome is retained exactly when the name
is `"chr"` followed by a non-empty ASCII digit string whose value lies in
`[1, 22]` (leading zeros admitted, e.g. `chr01`), or by exactly `"X"` or
`"Y"`; everything else is excluded, case-sensitively. -/
theorem c5_filter_characterization (c : String) :
    is_main_chromosome c = true ↔
      ∃ part : List Char, c.data = 'c' :: 'h' :: 'r' :: part ∧
        ((part ≠ [] ∧ part.all Char.isDigit = true ∧
            1 ≤ digitsVal part ∧ digitsVal part ≤ 22)
          ∨ part = ['X'] ∨ part = ['Y']) := by
  unfold is_main_chromosome
  split
  next part heq =>
    constructor
    · intro h
      refine ⟨part, heq, ?_⟩
      split_ifs at h with hd hxy
      · exact Or.inl ⟨hd.1, hd.2, of_decide_eq_true h⟩
      · exact Or.inr hxy
    · rintro ⟨part', hp', hcase⟩
      obtain rfl : part = part' := by
        rw [heq] at hp'
        simpa using hp'
      rcases hcase with ⟨hne, hdig, hval⟩ | hX | hY
      · rw [if_pos ⟨hne, hdig⟩]
        exact decide_eq_true hval
      · subst hX
        rw [if_neg (by simp), if_pos (Or.inl rfl)]
      · subst hY
        rw [if_neg (by simp), if_pos (Or.inr rfl)]
  next hne =>
    constructor
    · intro h
      exact absurd h (by simp)
    · rintro ⟨part, hp, _⟩
      exact absurd hp (by intro hc; exact hne part hc)

/-! ## Lengths produced by the normalizer (C1) -/

theorem uniformGo_mem_length {L : Int} :
    ∀ (peaks : List Peak) (c : Nat) (w : Peak),
      w ∈ uniformGo L peaks c → w.«end» - w.start = L := by
  intro peaks
  induction peaks with
  | nil => intro c w hw; simp [uniformGo] at hw
  | cons p rest ih =>
    intro c w hw
    simp only [uniformGo] at hw
    split_ifs at hw with h1 h2 h3
    · rcases List.mem_cons.mp hw with h | h
      · subst h; exact h1
      · exact ih _ _ h
    · rcases List.mem_cons.mp hw with h | h
      · subst h; dsimp only; omega
      · exact ih _ _ h
    · rcases List.mem_cons.mp hw with h | h
      · subst h; dsimp only; omega
      · exact ih _ _ h
    · rcases List.mem_append.mp hw with h | h
      · exact splitLoop_mem_length _ _ _ _ h
      · exact ih _ _ h

/-- C1: for every target length `L > 0` and every input list, every record
returned by `make_peaks_uniform_length` satisfies `end - start = L`
exactly, in all three branches (pass-through, extension — clamped or
not — and splitting). -/
theorem c1_normalizer_exact_length (peaks : List Peak) (L : Int) (hL : 0 < L) :
    ∀ w ∈ make_peaks_uniform_length peaks L, w.«end» - w.start = L :=
  fun w hw => uniformGo_mem_length peaks 0 w hw

/-- Witness for C1 at a concrete input exercising all three branches. -/
theorem c1_normalizer_exact_length_witness :
    (0 : Int) < 1000 ∧
    ∀ w ∈ make_peaks_uniform_length
      [⟨"chr1", 100, 300, 5, "a"⟩, ⟨"chr1", 0, 2500, 7, "b"⟩, ⟨"chr1", 0, 1000, 1, "c"⟩] 1000,
      w.«end» - w.start = 1000 :=
  ⟨by decide, c1_normalizer_exact_length _ 1000 (by decide)⟩

/-! ## Containment in the extension branch (C10) -/

/-- C10: a record with `start ≥ 0` and `0 < end - start < L` is extended
to a record containing the original interval, also in the clamped case. -/
theorem c10_extension_contains (p : Peak) (L : Int) (h0 : 0 ≤ p.start)
    (h1 : 0 < p.«end» - p.start) (h2 : p.«end» - p.start < L) :
    ∃ w, make_peaks_uniform_length [p] L = [w] ∧
      w.start ≤ p.start ∧ p.«end» ≤ w.«end» := by
  have hne : ¬(p.«end» - p.start = L) := by omega
  have hdiv := Int.ediv_add_emod (L - (p.«end» - p.start)) 2
  have hmod0 : 0 ≤ (L - (p.«end» - p.start)) % 2 := Int.emod_nonneg _ (by omega)
  have hmod2 : (L - (p.«end» - p.start)) % 2 < 2 := Int.emod_lt_of_pos _ (by omega)
  simp only [make_peaks_uniform_length, uniformGo, if_neg hne, if_pos h2]
  by_cases hcl : p.start - (L - (p.«end» - p.start)) / 2 < 0
  · rw [if_pos hcl]
    exact ⟨_, rfl, h0, by dsimp only; omega⟩
  · rw [if_neg hcl]
    exact ⟨_, rfl, by dsimp only; omega, by dsimp only; omega⟩

/-- Witness for C10 at the spec's own extension example (clamped case). -/
theorem c10_extension_contains_witness :
    (0 : Int) ≤ 100 ∧ (0 : Int) < 200 ∧ (200 : Int) < 1000 ∧
    ∃ w, make_peaks_uniform_length [⟨"chr1", 100, 300, 5, "a"⟩] 1000 = [w] ∧
      w.start ≤ 100 ∧ (300 : Int) ≤ w.«end» :=
  ⟨by decide, by decide, by decide,
    c10_extension_contains ⟨"chr1", 100, 300, 5, "a"⟩ 1000 (by decide) (by decide) (by decide)⟩

/-! ## The merge formula (C9) -/

/-- C9 counterexample: merging a peak whose id is `"a"` with a peak whose
id is empty yields the empty id, not `"a"` as the claim states. -/
theorem c9_merge_id_counterexample :
    (Peak.merge_with ⟨"chr1", 0, 10, 5, "a"⟩ ⟨"chr1", 5, 20, 7, ""⟩).peak_id = "" ∧
    (Peak.merge_with ⟨"chr1", 0, 10, 5, "a"⟩ ⟨"chr1", 5, 20, 7, ""⟩).peak_id ≠ "a" := by
  decide

/-- C9 amended: for same-chromosome operands the merged record is the
coordinate hull with the maximum score, and its id is
`current.id ++ "_" ++ next.id` when both ids are non-empty and `""`
otherwise (an empty operand id empties the result id). -/
theorem c9_merge_with_formula (p q : Peak) (h : p.chrom = q.chrom) :
    p.merge_with q =
      ⟨p.chrom, min p.start q.start, max p.«end» q.«end», max p.score q.score,
        if p.peak_id ≠ "" ∧ q.peak_id ≠ "" then p.peak_id ++ "_" ++ q.peak_id else ""⟩ :=
  rfl

/-- Witness for C9 (amended) at a concrete same-chromosome pair. -/
theorem c9_merge_with_formula_witness :
    ("chr1" : String) = "chr1" ∧
    Peak.merge_with ⟨"chr1", 100, 200, 5, "u"⟩ ⟨"chr1", 205, 300, 8, "v"⟩ =
      ⟨"chr1", min (100 : Int) 205, max (200 : Int) 300, max (5 : Int) 8,
        if ("u" : String) ≠ "" ∧ ("v" : String) ≠ "" then "u" ++ "_" ++ "v" else ""⟩ :=
  ⟨rfl, c9_merge_with_formula ⟨"chr1", 100, 200, 5, "u"⟩ ⟨"chr1", 205, 300, 8, "v"⟩ rfl⟩
